import Mathlib

/-!
Verification of the round-robin HTTP load balancer (`cmd/balancer/main.go`).

The embedding models the backend pool, the round-robin peer selection with
dead-backend skipping, the status-marking scan, the health-check sweep, the
dispatcher `lb`, and the retry/escalation protocol of the reverse-proxy
error handler.  Machine `uint64` arithmetic is modelled as `Nat` with explicit
reduction modulo `2 ^ 64`; the Go runtime panic on modulo-by-zero (empty
pool) is modelled by an `Option` result.
-/

set_option maxHeartbeats 1000000

namespace Balancer

/-- `2 ^ 64`, the modulus of Go `uint64` arithmetic. -/
def U64 : Nat := 18446744073709551616

/-- A backend server: the URL identity and the alive flag.  The mutex only
guards the flag and the reverse-proxy handle carries no state of its own, so
neither appears in the model; the failure behaviour of the proxy is modelled by
the run semantics `runFail` below. -/
structure Server where
  url : String
  alive : Bool
deriving DecidableEq

/-- `ServerPool` from the source: the backend list and the shared rotation
counter `current` (a Go `uint64`, kept in `[0, 2^64)`). -/
structure ServerPool where
  backends : List Server
  current : Nat
deriving DecidableEq

/-- `AddServer`: append a backend to the pool. -/
def ServerPool.AddServer (s : ServerPool) (server : Server) : ServerPool :=
  { s with backends := s.backends ++ [server] }

/-- `NextIndex`: atomically increment `current` (wrapping at `2^64`) and
return the incremented value modulo the pool size.  Go panics on an empty
pool (`% 0`); the model returns `none` in that case. -/
def ServerPool.NextIndex (s : ServerPool) : Option (Nat × ServerPool) :=
  if s.backends.length = 0 then none
  else
    let cur := (s.current + 1) % U64
    some (cur % s.backends.length, { s with current := cur })

/-- The scan of `MarkServerStatus`: set the alive flag of the FIRST backend
whose URL equals `serverUrl`, then `break`; later matches are untouched. -/
def markFirst : List Server → String → Bool → List Server
  | [], _, _ => []
  | b :: rest, u, v =>
    if b.url = u then { b with alive := v } :: rest
    else b :: markFirst rest u v

/-- `MarkServerStatus`: change the status of (the first matching) backend. -/
def ServerPool.MarkServerStatus (s : ServerPool) (serverUrl : String) (alive : Bool) :
    ServerPool :=
  { s with backends := markFirst s.backends serverUrl alive }

/-- The loop of `GetNextPeer`: the loop variable `i` starts at `next` and
runs for `len(backends)` iterations (the fuel), inspecting
`backends[i % len]`; the first alive hit returns the loop variable together
with that backend. -/
def findAliveFrom (backends : List Server) : Nat → Nat → Option (Nat × Server)
  | _, 0 => none
  | i, fuel + 1 =>
    match backends[i % backends.length]? with
    | none => none
    | some b =>
      if b.alive then some (i, b)
      else findAliveFrom backends (i + 1) fuel

/-- `GetNextPeer`: take a start index from `NextIndex`, scan forward through
all positions (wrapping modulo the pool size) for the first alive backend;
when it is found at a loop position `i` other than the start, store `i % len`
back into `current`.  Outer `none` models the empty-pool panic inside
`NextIndex`; inner `none` is the Go `nil` result (no alive backend). -/
def ServerPool.GetNextPeer (s : ServerPool) : Option (Option Server × ServerPool) :=
  match s.NextIndex with
  | none => none
  | some (next, s1) =>
    match findAliveFrom s1.backends next s1.backends.length with
    | none => some (none, s1)
    | some (i, b) =>
      let s2 := if i ≠ next then { s1 with current := i % s1.backends.length } else s1
      some (some b, s2)

/-- `HealthCheck`: probe the URL of every backend and set its alive flag from the
probe result (the TCP reachability probe is the external parameter). -/
def ServerPool.HealthCheck (s : ServerPool) (probe : String → Bool) : ServerPool :=
  { s with backends := s.backends.map fun b => { b with alive := probe b.url } }

/-- The request context values stored under the `Attempts` and `Retry` keys
(`context.WithValue`); `none` models an absent key. -/
structure ReqCtx where
  attempts : Option Int
  retry : Option Int
deriving DecidableEq

/-- `GetAttemptsFromContext`: the `Attempts` value, defaulting to 1. -/
def GetAttemptsFromContext (c : ReqCtx) : Int := c.attempts.getD 1

/-- `GetRetryFromContext`: the `Retry` value, defaulting to 0. -/
def GetRetryFromContext (c : ReqCtx) : Int := c.retry.getD 0

/-- The observable outcome of one `lb` call: a service-unavailable response
or a forward through the reverse proxy of the selected peer. -/
inductive LbOutcome where
  | unavailable
  | forwarded (peer : Server)
deriving DecidableEq

/-- The dispatcher `lb`: reject with service-unavailable when the attempts
counter exceeds 3 (before touching the pool), otherwise select a peer; with
no peer respond service-unavailable, with a peer forward through it.  `none`
models the empty-pool panic reachable through `GetNextPeer`. -/
def lb (pool : ServerPool) (c : ReqCtx) : Option (LbOutcome × ServerPool) :=
  if GetAttemptsFromContext c > 3 then some (LbOutcome.unavailable, pool)
  else
    match pool.GetNextPeer with
    | none => none
    | some (none, pool1) => some (LbOutcome.unavailable, pool1)
    | some (some peer, pool1) => some (LbOutcome.forwarded peer, pool1)

/-- Events observable in a run of a request all of whose forwards fail:
a (failing) forward to a backend URL, or the 503 response. -/
inductive Ev where
  | forward (url : String)
  | respond503
deriving DecidableEq

mutual

/-- Run of `lb` on a request every one of whose forwards fails, following
the source: the check of the attempts ceiling, peer selection, and the
forward whose failure enters the proxy `ErrorHandler` (`failHandler`).
The fuel bounds the recursion depth; `none` is fuel exhaustion or the
empty-pool panic. -/
def runFail : Nat → ServerPool → ReqCtx → Option (List Ev × ServerPool)
  | 0, _, _ => none
  | fuel + 1, pool, c =>
    if GetAttemptsFromContext c > 3 then some ([Ev.respond503], pool)
    else
      match pool.GetNextPeer with
      | none => none
      | some (none, pool1) => some ([Ev.respond503], pool1)
      | some (some peer, pool1) =>
        match failHandler fuel pool1 peer.url c with
        | none => none
        | some (evs, pool2) => some (Ev.forward peer.url :: evs, pool2)

/-- The proxy `ErrorHandler` of backend `u`, entered when a forward with
request context `c` has just failed, with every further forward also
failing: with `retries < 3` re-forward to the same backend under a context
carrying `Retry := retries + 1`; otherwise mark `u` dead and re-enter `lb`
under a context carrying `Attempts := attempts + 1` (the `Retry` value is
carried along unchanged, exactly as `context.WithValue` leaves it). -/
def failHandler : Nat → ServerPool → String → ReqCtx → Option (List Ev × ServerPool)
  | 0, _, _, _ => none
  | fuel + 1, pool, u, c =>
    let retries := GetRetryFromContext c
    if retries < 3 then
      match failHandler fuel pool u { c with retry := some (retries + 1) } with
      | none => none
      | some (evs, pool1) => some (Ev.forward u :: evs, pool1)
    else
      let pool1 := pool.MarkServerStatus u false
      let a := GetAttemptsFromContext c
      runFail fuel pool1 { c with attempts := some (a + 1) }

end

/-- `n` consecutive `GetNextPeer` calls: the list of returned peers
(`none` entries are Go `nil` results) and the final pool. -/
def peersN : Nat → ServerPool → Option (List (Option Server) × ServerPool)
  | 0, s => some ([], s)
  | n + 1, s =>
    match s.GetNextPeer with
    | none => none
    | some (op, s1) =>
      match peersN n s1 with
      | none => none
      | some (l, s2) => some (op :: l, s2)

/-! ### Helper lemmas about `markFirst` -/

theorem markFirst_idem (l : List Server) (u : String) (v : Bool) :
    markFirst (markFirst l u v) u v = markFirst l u v := by
  induction l with
  | nil => rfl
  | cons b rest ih =>
    by_cases h : b.url = u
    · simp [markFirst, h]
    · simp [markFirst, h, ih]

theorem markFirst_no_match (l : List Server) (u : String) (v : Bool)
    (h : ∀ b ∈ l, b.url ≠ u) : markFirst l u v = l := by
  induction l with
  | nil => rfl
  | cons b rest ih =>
    have hb : b.url ≠ u := h b (by simp)
    simp only [markFirst, if_neg hb]
    rw [ih fun x hx => h x (by simp [hx])]

theorem markFirst_first_match (pre post : List Server) (b : Server)
    (u : String) (v : Bool) (hb : b.url = u) (hpre : ∀ x ∈ pre, x.url ≠ u) :
    markFirst (pre ++ b :: post) u v = pre ++ { b with alive := v } :: post := by
  induction pre with
  | nil => simp [markFirst, hb]
  | cons x rest ih =>
    have hx : x.url ≠ u := hpre x (by simp)
    have ih' := ih fun y hy => hpre y (by simp [hy])
    simp [markFirst, hx, ih']

/-! ### Helper lemmas about `findAliveFrom` -/

theorem findAliveFrom_all_dead (l : List Server)
    (hdead : ∀ b ∈ l, b.alive = false) (i fuel : Nat) :
    findAliveFrom l i fuel = none := by
  induction fuel generalizing i with
  | zero => rfl
  | succ fuel ih =>
    unfold findAliveFrom
    cases hg : l[i % l.length]? with
    | none => rfl
    | some b =>
      have : b.alive = false := hdead b (List.getElem?_mem hg)
      simp [this, ih]

theorem findAliveFrom_sound (l : List Server) (i fuel i' : Nat) (b : Server)
    (h : findAliveFrom l i fuel = some (i', b)) :
    l[i' % l.length]? = some b ∧ b.alive = true := by
  induction fuel generalizing i with
  | zero => simp [findAliveFrom] at h
  | succ fuel ih =>
    unfold findAliveFrom at h
    split at h
    · exact absurd h (by simp)
    · rename_i bb hg
      split at h
      · rename_i hal
        have hi : i = i' ∧ bb = b := by
          have := Option.some.inj h
          exact ⟨congrArg Prod.fst this, congrArg Prod.snd this⟩
        obtain ⟨rfl, rfl⟩ := hi
        exact ⟨hg, hal⟩
      · exact ih (i + 1) h

theorem findAliveFrom_success (l : List Server) (hne : l.length ≠ 0)
    (i fuel : Nat)
    (h : ∃ k < fuel, ∃ b, l[(i + k) % l.length]? = some b ∧ b.alive = true) :
    ∃ i' b, findAliveFrom l i fuel = some (i', b) := by
  induction fuel generalizing i with
  | zero =>
    obtain ⟨k, hk, _⟩ := h
    exact absurd hk (Nat.not_lt_zero k)
  | succ fuel ih =>
    have hlt : i % l.length < l.length := Nat.mod_lt i (Nat.pos_of_ne_zero hne)
    obtain ⟨bb, hbb⟩ : ∃ bb, l[i % l.length]? = some bb :=
      ⟨l[i % l.length], (List.getElem?_eq_some_getElem_iff l _ hlt).mpr trivial⟩
    by_cases hal : bb.alive
    · exact ⟨i, bb, by unfold findAliveFrom; rw [hbb]; simp [hal]⟩
    · obtain ⟨k, hk, b, hbk, halb⟩ := h
      have hk0 : k ≠ 0 := by
        intro h0
        subst h0
        rw [Nat.add_zero] at hbk
        rw [hbb] at hbk
        have : bb = b := Option.some.inj hbk
        subst this
        exact hal halb
      obtain ⟨k', rfl⟩ := Nat.exists_eq_succ_of_ne_zero hk0
      have hgoal : ∃ k < fuel, ∃ b, l[(i + 1 + k) % l.length]? = some b ∧ b.alive = true := by
        refine ⟨k', Nat.lt_of_succ_lt_succ hk, b, ?_, halb⟩
        have harr : i + 1 + k' = i + (k' + 1) := by omega
        rw [harr]
        exact hbk
      obtain ⟨i', b', hfind⟩ := ih (i + 1) hgoal
      exact ⟨i', b', by unfold findAliveFrom; rw [hbb]; simp [hal, hfind]⟩

/-- For any start `next < len` and target `j < len` there is an offset
`k < len` with `(next + k) % len = j`: the wrapping scan visits every
position. -/
theorem exists_offset (next j len : Nat) (hn : next < len) (hj : j < len) :
    ∃ k < len, (next + k) % len = j := by
  by_cases h : next ≤ j
  · exact ⟨j - next, by omega, by rw [Nat.add_sub_cancel' h]; exact Nat.mod_eq_of_lt hj⟩
  · refine ⟨j + len - next, by omega, ?_⟩
    have : next + (j + len - next) = j + len := by omega
    rw [this, Nat.add_mod_right]
    exact Nat.mod_eq_of_lt hj

/-! ### Helper lemmas about `GetNextPeer` -/

theorem gnp_all_dead (s : ServerPool) (hne : s.backends.length ≠ 0)
    (hdead : ∀ b ∈ s.backends, b.alive = false) :
    s.GetNextPeer = some (none, { s with current := (s.current + 1) % U64 }) := by
  unfold ServerPool.GetNextPeer ServerPool.NextIndex
  rw [if_neg hne]
  simp only
  rw [findAliveFrom_all_dead _ hdead]

theorem gnp_exists_alive (s : ServerPool) (hne : s.backends.length ≠ 0)
    (halive : ∃ b ∈ s.backends, b.alive = true) :
    ∃ peer s', s.GetNextPeer = some (some peer, s') ∧
      peer ∈ s.backends ∧ peer.alive = true := by
  obtain ⟨b, hmem, halb⟩ := halive
  obtain ⟨j, hjlt, hj⟩ := List.getElem_of_mem hmem
  have hlen : 0 < s.backends.length := Nat.pos_of_ne_zero hne
  set next := ((s.current + 1) % U64) % s.backends.length with hnext
  have hnextlt : next < s.backends.length := Nat.mod_lt _ hlen
  obtain ⟨k, hk, hoff⟩ := exists_offset next j s.backends.length hnextlt hjlt
  have hsucc : ∃ i' b', findAliveFrom s.backends next s.backends.length = some (i', b') := by
    refine findAliveFrom_success s.backends hne next s.backends.length ⟨k, hk, b, ?_, halb⟩
    rw [hoff, ← hj]
    exact (List.getElem?_eq_some_getElem_iff _ _ hjlt).mpr trivial
  obtain ⟨i', b', hfind⟩ := hsucc
  obtain ⟨hget, halb'⟩ := findAliveFrom_sound s.backends next s.backends.length i' b' hfind
  refine ⟨b', ?_⟩
  unfold ServerPool.GetNextPeer ServerPool.NextIndex
  rw [if_neg hne]
  simp only
  rw [hfind]
  exact ⟨_, rfl, List.getElem?_mem hget, halb'⟩

theorem gnp_unique_alive (s : ServerPool) (j : Nat) (b : Server)
    (hj : s.backends[j]? = some b) (hb : b.alive = true)
    (huniq : ∀ k b', s.backends[k]? = some b' → b'.alive = true → k = j) :
    ∃ s', s.GetNextPeer = some (some b, s') := by
  have hjlt : j < s.backends.length := by
    by_contra hge
    rw [List.getElem?_eq_none (Nat.le_of_not_lt hge)] at hj
    exact absurd hj (by simp)
  have hne : s.backends.length ≠ 0 := by omega
  have hlen : 0 < s.backends.length := Nat.pos_of_ne_zero hne
  set next := ((s.current + 1) % U64) % s.backends.length with hnext
  have hnextlt : next < s.backends.length := Nat.mod_lt _ hlen
  obtain ⟨k, hk, hoff⟩ := exists_offset next j s.backends.length hnextlt hjlt
  obtain ⟨i', b', hfind⟩ :=
    findAliveFrom_success s.backends hne next s.backends.length
      ⟨k, hk, b, by rw [hoff]; exact hj, hb⟩
  obtain ⟨hget, halb'⟩ := findAliveFrom_sound s.backends next s.backends.length i' b' hfind
  have hidx : i' % s.backends.length = j := huniq _ _ hget halb'
  have hb' : b' = b := by
    rw [hidx] at hget
    rw [hget] at hj
    exact Option.some.inj hj
  subst hb'
  refine ⟨if i' ≠ next then { s with current := i' % s.backends.length }
    else { s with current := (s.current + 1) % U64 }, ?_⟩
  unfold ServerPool.GetNextPeer ServerPool.NextIndex
  rw [if_neg hne]
  simp only
  rw [hfind]

theorem gnp_all_alive (s : ServerPool) (hne : s.backends.length ≠ 0)
    (hall : ∀ b ∈ s.backends, b.alive = true) :
    s.GetNextPeer = some (s.backends[((s.current + 1) % U64) % s.backends.length]?,
      { s with current := (s.current + 1) % U64 }) := by
  have hlen : 0 < s.backends.length := Nat.pos_of_ne_zero hne
  set next := ((s.current + 1) % U64) % s.backends.length with hnext
  have hnextlt : next < s.backends.length := Nat.mod_lt _ hlen
  have hget : s.backends[next]? = some s.backends[next] :=
    (List.getElem?_eq_some_getElem_iff _ _ hnextlt).mpr trivial
  have halb : s.backends[next].alive = true :=
    hall _ (List.getElem_mem hnextlt)
  obtain ⟨m, hm⟩ : ∃ m, s.backends.length = m + 1 := ⟨s.backends.length - 1, by omega⟩
  have hfind : findAliveFrom s.backends next s.backends.length = some (next, s.backends[next]) := by
    rw [hm]
    unfold findAliveFrom
    have : next % s.backends.length = next := Nat.mod_eq_of_lt hnextlt
    rw [this, hget]
    simp [halb]
  unfold ServerPool.GetNextPeer ServerPool.NextIndex
  rw [if_neg hne]
  simp only
  rw [hfind]
  simp [hget]

/-! ### Round-robin over `n` consecutive calls -/

theorem peersN_all_alive (m : Nat) (s : ServerPool) (n : Nat)
    (hall : ∀ b ∈ s.backends, b.alive = true)
    (hlen : s.backends.length = n) (hn : 1 ≤ n)
    (hcur : s.current + m < U64) :
    peersN m s = some ((List.range m).map (fun k => s.backends[(s.current + 1 + k) % n]?),
      { s with current := s.current + m }) := by
  induction m generalizing s with
  | zero => simp [peersN]
  | succ m ih =>
    have hne : s.backends.length ≠ 0 := by omega
    have hstep : (s.current + 1) % U64 = s.current + 1 := Nat.mod_eq_of_lt (by omega)
    have hgnp := gnp_all_alive s hne hall
    rw [hstep] at hgnp
    have ihs := ih { s with current := s.current + 1 } hall hlen
      (by show s.current + 1 + m < U64; omega)
    have harr : ∀ k : Nat, s.current + 1 + 1 + k = s.current + 1 + (k + 1) := by omega
    have hc2 : s.current + 1 + m = s.current + (m + 1) := by omega
    simp only [peersN, hgnp, ihs, List.range_succ_eq_map, List.map_cons, List.map_map,
      Function.comp_def, Nat.succ_eq_add_one, Nat.add_zero, hlen, hstep, harr, hc2]

theorem rotation_perm (c n : Nat) (hn : 1 ≤ n) :
    ((List.range n).map fun k => (c + 1 + k) % n).Perm (List.range n) := by
  have hnodup : (((List.range n).map fun k => (c + 1 + k) % n)).Nodup := by
    refine List.Nodup.map_on ?_ (List.nodup_range n)
    intro x hx y hy hxy
    rw [List.mem_range] at hx hy
    have hmod : x % n = y % n := Nat.ModEq.add_left_cancel' (c + 1) hxy
    rw [Nat.mod_eq_of_lt hx, Nat.mod_eq_of_lt hy] at hmod
    exact hmod
  have hsub : ((List.range n).map fun k => (c + 1 + k) % n) ⊆ List.range n := by
    intro a ha
    rw [List.mem_map] at ha
    obtain ⟨k, _, rfl⟩ := ha
    rw [List.mem_range]
    exact Nat.mod_lt _ (by omega)
  exact (List.subperm_of_subset hnodup hsub).perm_of_length_le (by simp)

/-! ### Claim theorems -/

/-- C2 (amended): with all backends alive and no `uint64` wraparound of the
cursor during the `n` calls, `n` consecutive `GetNextPeer` calls return the
backends at indices `(cursor+1+k) % n` for `k < n`, and that index sequence
is a permutation of `0..n-1` — each backend position exactly once.  (At a
cursor about to wrap past `2^64`, uniformity can fail; see the
counterexample.) -/
theorem round_robin_uniform (s : ServerPool) (n : Nat)
    (hall : ∀ b ∈ s.backends, b.alive = true)
    (hlen : s.backends.length = n) (hn : 1 ≤ n)
    (hcur : s.current + n < U64) :
    peersN n s = some ((List.range n).map (fun k => s.backends[(s.current + 1 + k) % n]?),
      { s with current := s.current + n }) ∧
    ((List.range n).map fun k => (s.current + 1 + k) % n).Perm (List.range n) :=
  ⟨peersN_all_alive n s n hall hlen hn hcur, rotation_perm s.current n hn⟩

/-- C2 witness: the scenario of the spec — pool `[A, B, C]` all alive, cursor 0;
the first four returns are B, C, A, B (here the first three, by the general
theorem, are B, C, A). -/
theorem round_robin_uniform_witness :
    peersN 3 (ServerPool.mk [⟨"a", true⟩, ⟨"b", true⟩, ⟨"c", true⟩] 0) =
      some ([some ⟨"b", true⟩, some ⟨"c", true⟩, some ⟨"a", true⟩],
        ServerPool.mk [⟨"a", true⟩, ⟨"b", true⟩, ⟨"c", true⟩] 3) ∧
    ((List.range 3).map fun k => (0 + 1 + k) % 3).Perm (List.range 3) :=
  ⟨by rw [(round_robin_uniform (ServerPool.mk [⟨"a", true⟩, ⟨"b", true⟩, ⟨"c", true⟩] 0) 3
      (by decide) rfl (by decide) (by decide)).1]; rfl,
   (round_robin_uniform (ServerPool.mk [⟨"a", true⟩, ⟨"b", true⟩, ⟨"c", true⟩] 0) 3
      (by decide) rfl (by decide) (by decide)).2⟩

/-- C2 counterexample: with pool `[A, B, C]` all alive and cursor
`2^64 - 2`, the `uint64` counter wraps during three consecutive
`GetNextPeer` calls and the returns are A, A, B — backend A twice and C
never, refuting "each of the n backends exactly once" for every cursor
value. -/
theorem round_robin_wrap_cex :
    peersN 3 (ServerPool.mk [⟨"a", true⟩, ⟨"b", true⟩, ⟨"c", true⟩] (U64 - 2)) =
      some ([some ⟨"a", true⟩, some ⟨"a", true⟩, some ⟨"b", true⟩],
        ServerPool.mk [⟨"a", true⟩, ⟨"b", true⟩, ⟨"c", true⟩] 1) ∧
    List.count (some (Server.mk "c" true))
      [some (Server.mk "a" true), some (Server.mk "a" true), some (Server.mk "b" true)] ≠ 1 := by
  decide

/-- C4 counterexample: with two backends of identical identity `"a"`, both
alive, `MarkServerStatus "a" false` updates only the first (the scan
`break`s), so not every identity-matching backend ends with the given alive
value. -/
theorem mark_status_duplicate_cex :
    (ServerPool.mk [⟨"a", true⟩, ⟨"a", true⟩] 0).MarkServerStatus "a" false =
      ServerPool.mk [⟨"a", false⟩, ⟨"a", true⟩] 0 ∧
    ¬ (∀ b ∈ ((ServerPool.mk [⟨"a", true⟩, ⟨"a", true⟩] 0).MarkServerStatus "a" false).backends,
        b.url = "a" → b.alive = false) := by
  decide

/-- C4 (amended): `MarkServerStatus` updates exactly the FIRST backend whose
identity matches; every backend before it (non-matching) and after it
(matching or not) is unchanged, and the cursor is unchanged. -/
theorem mark_status_first_match_only (s : ServerPool) (u : String) (v : Bool)
    (pre post : List Server) (b : Server)
    (hsplit : s.backends = pre ++ b :: post) (hb : b.url = u)
    (hpre : ∀ x ∈ pre, x.url ≠ u) :
    (s.MarkServerStatus u v).backends = pre ++ { b with alive := v } :: post ∧
    (s.MarkServerStatus u v).current = s.current := by
  refine ⟨?_, rfl⟩
  show markFirst s.backends u v = _
  rw [hsplit]
  exact markFirst_first_match pre post b u v hb hpre

/-- C4 witness: pool `[x, a, a]`; marking `"a"` dead yields `[x, a-dead, a-alive]`. -/
theorem mark_status_first_match_only_witness :
    ((ServerPool.mk [⟨"x", true⟩, ⟨"a", true⟩, ⟨"a", true⟩] 2).MarkServerStatus "a" false).backends =
      [⟨"x", true⟩] ++ ⟨"a", false⟩ :: [⟨"a", true⟩] ∧
    ((ServerPool.mk [⟨"x", true⟩, ⟨"a", true⟩, ⟨"a", true⟩] 2).MarkServerStatus "a" false).current = 2 :=
  mark_status_first_match_only _ "a" false [⟨"x", true⟩] [⟨"a", true⟩] ⟨"a", true⟩
    rfl rfl (by decide)

/-- C5 counterexample: pool `[a-dead, b-alive]` with cursor 5: `GetNextPeer`
skips the dead backend at the start index and stores the found index 1 back
into the cursor — the cursor drops from 5 (and from the incremented 6) to 1,
refuting monotonicity. -/
theorem cursor_decrease_cex :
    (ServerPool.mk [⟨"a", false⟩, ⟨"b", true⟩] 5).GetNextPeer =
      some (some ⟨"b", true⟩, ServerPool.mk [⟨"a", false⟩, ⟨"b", true⟩] 1) ∧
    (1 : Nat) < 5 := by
  decide

/-- C5 (amended): the cursor is unchanged by `MarkServerStatus` and
`HealthCheck`, and `NextIndex` advances it to `(cursor + 1) mod 2^64`; it is
NOT monotone across all pool operations, because the store-back in `GetNextPeer`
can write the index of the found backend, which may be smaller than the previous
cursor (see the counterexample). -/
theorem cursor_update_characterization (s : ServerPool) (u : String) (v : Bool)
    (probe : String → Bool) :
    (s.MarkServerStatus u v).current = s.current ∧
    (s.HealthCheck probe).current = s.current ∧
    (s.NextIndex.map fun p => p.2.current) =
      (if s.backends.length = 0 then none else some ((s.current + 1) % U64)) := by
  refine ⟨rfl, rfl, ?_⟩
  unfold ServerPool.NextIndex
  by_cases h : s.backends.length = 0
  · rw [if_pos h, if_pos h]
    rfl
  · rw [if_neg h, if_neg h]
    rfl

/-- C7: with a non-empty pool in which no backend is alive, `GetNextPeer`
returns the Go `nil` (modelled `none`), leaving only the incremented cursor. -/
theorem get_next_peer_all_dead (s : ServerPool) (hne : s.backends.length ≠ 0)
    (hdead : ∀ b ∈ s.backends, b.alive = false) :
    s.GetNextPeer = some (none, { s with current := (s.current + 1) % U64 }) :=
  gnp_all_dead s hne hdead

/-- C7 witness: a one-backend dead pool yields no peer. -/
theorem get_next_peer_all_dead_witness :
    (ServerPool.mk [⟨"a", false⟩] 0).GetNextPeer =
      some (none, ServerPool.mk [⟨"a", false⟩] 1) :=
  get_next_peer_all_dead _ (by decide) (by decide)

/-- C8: `MarkServerStatus` is idempotent — a second call with the same
identity and alive value leaves the pool exactly as after the first. -/
theorem mark_status_idempotent (s : ServerPool) (u : String) (v : Bool) :
    (s.MarkServerStatus u v).MarkServerStatus u v = s.MarkServerStatus u v := by
  unfold ServerPool.MarkServerStatus
  simp [markFirst_idem]

/-- C9: `NextIndex` (and hence `GetNextPeer`) hits the modulo-by-zero panic
exactly on the empty pool (modelled by `none`), and on a non-empty pool the
returned index is always within `[0, len(backends))`. -/
theorem next_index_defined_iff (s : ServerPool) :
    (s.NextIndex = none ↔ s.backends.length = 0) ∧
    (s.GetNextPeer = none ↔ s.backends.length = 0) ∧
    ∀ idx s1, s.NextIndex = some (idx, s1) → idx < s.backends.length := by
  by_cases h : s.backends.length = 0
  · refine ⟨by simp [ServerPool.NextIndex, h], ?_, ?_⟩
    · simp [ServerPool.GetNextPeer, ServerPool.NextIndex, h]
    · intro idx s1 hcontra
      unfold ServerPool.NextIndex at hcontra
      rw [if_pos h] at hcontra
      exact absurd hcontra (by simp)
  · have hsome : s.NextIndex =
        some (((s.current + 1) % U64) % s.backends.length,
          { s with current := (s.current + 1) % U64 }) := by
      unfold ServerPool.NextIndex
      rw [if_neg h]
    have hgnp : s.GetNextPeer ≠ none := by
      unfold ServerPool.GetNextPeer
      rw [hsome]
      simp only
      cases hf : findAliveFrom s.backends (((s.current + 1) % U64) % s.backends.length)
          s.backends.length with
      | none => simp
      | some p => cases p with | mk i b => simp
    refine ⟨by simp [hsome, h], by simp [hgnp, h], ?_⟩
    intro idx s1 hni
    rw [hsome] at hni
    have h12 := Option.some.inj hni
    have hidx : ((s.current + 1) % U64) % s.backends.length = idx := congrArg Prod.fst h12
    rw [← hidx]
    exact Nat.mod_lt _ (Nat.pos_of_ne_zero h)

/-- C9 witness: on the one-backend pool with cursor 5, `NextIndex` returns
index 0, which is below the pool size. -/
theorem next_index_defined_iff_witness :
    (0 : Nat) < (ServerPool.mk [⟨"a", true⟩] 5).backends.length :=
  (next_index_defined_iff (ServerPool.mk [⟨"a", true⟩] 5)).2.2 0
    (ServerPool.mk [⟨"a", true⟩] 6) (by decide)

/-- C10: `MarkServerStatus` with an identity matching no backend is a no-op:
the whole pool (every backend and the cursor) is unchanged. -/
theorem mark_status_no_match_noop (s : ServerPool) (u : String) (v : Bool)
    (h : ∀ b ∈ s.backends, b.url ≠ u) : s.MarkServerStatus u v = s := by
  unfold ServerPool.MarkServerStatus
  rw [markFirst_no_match s.backends u v h]

/-- C10 witness: marking the absent identity `"z"` leaves the pool intact. -/
theorem mark_status_no_match_noop_witness :
    (ServerPool.mk [⟨"a", true⟩] 7).MarkServerStatus "z" false =
      ServerPool.mk [⟨"a", true⟩] 7 :=
  mark_status_no_match_noop _ "z" false (by decide)

/-- C6: if exactly one position in the pool holds an alive backend, then
`GetNextPeer` returns that backend, for every value of the cursor (the
cursor is part of `s` and is unconstrained). -/
theorem get_next_peer_unique_alive (s : ServerPool) (j : Nat) (b : Server)
    (hj : s.backends[j]? = some b) (hb : b.alive = true)
    (huniq : ∀ k b', s.backends[k]? = some b' → b'.alive = true → k = j) :
    ∃ s', s.GetNextPeer = some (some b, s') :=
  gnp_unique_alive s j b hj hb huniq

/-- C6 witness: the scenario of the spec — pool `[A, B]`, A dead; the call
returns B (here at cursor 9, an arbitrary value). -/
theorem get_next_peer_unique_alive_witness :
    ∃ s', (ServerPool.mk [⟨"a", false⟩, ⟨"b", true⟩] 9).GetNextPeer =
      some (some ⟨"b", true⟩, s') :=
  get_next_peer_unique_alive _ 1 ⟨"b", true⟩ (by decide) (by decide)
    (by
      intro k b' hk hal
      cases k with
      | zero =>
        simp at hk
        subst hk
        exact absurd hal (by decide)
      | succ k =>
        cases k with
        | zero => rfl
        | succ k => simp at hk)

/-- C3: the dispatcher `lb` responds service-unavailable without touching
the pool when the attempts counter (default 1 when absent) exceeds 3;
otherwise, with no alive backend it responds service-unavailable after the
failed selection, and with an alive backend it forwards through the
returned (alive, pool-member) peer. -/
theorem lb_contract (s : ServerPool) (c : ReqCtx) (hne : s.backends.length ≠ 0) :
    (GetAttemptsFromContext c > 3 → lb s c = some (LbOutcome.unavailable, s)) ∧
    (¬ GetAttemptsFromContext c > 3 → (∀ b ∈ s.backends, b.alive = false) →
      lb s c = some (LbOutcome.unavailable, { s with current := (s.current + 1) % U64 })) ∧
    (¬ GetAttemptsFromContext c > 3 → (∃ b ∈ s.backends, b.alive = true) →
      ∃ peer s', lb s c = some (LbOutcome.forwarded peer, s') ∧
        peer ∈ s.backends ∧ peer.alive = true) := by
  refine ⟨?_, ?_, ?_⟩
  · intro h
    unfold lb
    rw [if_pos h]
  · intro h hdead
    unfold lb
    rw [if_neg h, gnp_all_dead s hne hdead]
  · intro h halive
    obtain ⟨peer, s', hgnp, hmem, hal⟩ := gnp_exists_alive s hne halive
    refine ⟨peer, s', ?_, hmem, hal⟩
    unfold lb
    rw [if_neg h, hgnp]

/-- C3 witness: with `Attempts = 4` in the context, `lb` responds
service-unavailable and leaves the pool untouched. -/
theorem lb_contract_witness :
    lb (ServerPool.mk [⟨"a", true⟩] 0) ⟨some 4, none⟩ =
      some (LbOutcome.unavailable, ServerPool.mk [⟨"a", true⟩] 0) :=
  (lb_contract _ _ (by decide)).1 (by decide)

/-- C1 counterexample: pool of three distinct alive backends, fresh request
context, every forward failing.  The full trace is 4 forwards to the first
selected backend (`"b"`), then a single forward each to `"c"` and `"a"`,
then the 503 — the second selected backend receives 1 forward, not the
1 + 3-retries = 4 that the claim sentence "exhausts retries in exactly 3 same-backend
attempts before escalating" requires of every escalation. -/
theorem retry_carryover_cex :
    runFail 16 (ServerPool.mk [⟨"a", true⟩, ⟨"b", true⟩, ⟨"c", true⟩] 0) ⟨none, none⟩ =
      some ([Ev.forward "b", Ev.forward "b", Ev.forward "b", Ev.forward "b",
        Ev.forward "c", Ev.forward "a", Ev.respond503],
        ServerPool.mk [⟨"a", false⟩, ⟨"b", false⟩, ⟨"c", false⟩] 3) ∧
    List.count (Ev.forward "c")
      [Ev.forward "b", Ev.forward "b", Ev.forward "b", Ev.forward "b",
        Ev.forward "c", Ev.forward "a", Ev.respond503] ≠ 4 := by
  decide

/-- C1 (amended): for a pool of three distinct alive backends and a request
every one of whose forwards fails, only the FIRST selected backend receives
the 3 same-backend retries (4 forwards in total); the `Retry` value is
carried in the context and never reset, so each subsequently selected
backend is escalated past after a single forward; the request still
escalates through exactly 3 distinct backends (attempts 1, 2, 3), each
marked dead in turn, and the dispatcher responds service-unavailable on
attempt 4. -/
theorem retry_escalation_amended (u1 u2 u3 : String)
    (h12 : u1 ≠ u2) (h13 : u1 ≠ u3) (h23 : u2 ≠ u3) :
    runFail 16 (ServerPool.mk [⟨u1, true⟩, ⟨u2, true⟩, ⟨u3, true⟩] 0) ⟨none, none⟩ =
      some ([Ev.forward u2, Ev.forward u2, Ev.forward u2, Ev.forward u2,
        Ev.forward u3, Ev.forward u1, Ev.respond503],
        ServerPool.mk [⟨u1, false⟩, ⟨u2, false⟩, ⟨u3, false⟩] 3) := by
  simp [runFail, failHandler, lb, ServerPool.GetNextPeer, ServerPool.NextIndex,
    findAliveFrom, ServerPool.MarkServerStatus, markFirst,
    GetAttemptsFromContext, GetRetryFromContext, U64, h12, h13, h23]

/-- C1 witness: the amended trace at the concrete backends
`"a"`, `"b"`, `"c"`. -/
theorem retry_escalation_amended_witness :
    runFail 16 (ServerPool.mk [⟨"aa", true⟩, ⟨"bb", true⟩, ⟨"cc", true⟩] 0) ⟨none, none⟩ =
      some ([Ev.forward "bb", Ev.forward "bb", Ev.forward "bb", Ev.forward "bb",
        Ev.forward "cc", Ev.forward "aa", Ev.respond503],
        ServerPool.mk [⟨"aa", false⟩, ⟨"bb", false⟩, ⟨"cc", false⟩] 3) :=
  retry_escalation_amended "aa" "bb" "cc" (by decide) (by decide) (by decide)

end Balancer
